import Mathlib

/-!
A shallow embedding of `redis_cache/cache.py` (django-redis-cache): the
connection-pool registry, the key codec, the value codec and the cache
facade operations (`add`, `set`, `get`, `incr`, `incr_version`,
`get_many`), together with theorems settling the frozen claims about them.

The Redis node itself and the `redis-py` client are external collaborators;
their verbs (SET/SETNX/SETEX/EXPIRE/INCR/RENAME/MGET/EXISTS) are modelled
as pure transitions on an association-list keyspace, with entries carrying
the raw wire value and the time-to-live that was last set.  The sharder
(`redis_cache/sharder.py`, not part of the sources given) is modelled from
the spec.  Timeouts are rationals, mirroring Python numerics exactly where
the code truncates them with `int(...)`.
-/

namespace RedisCacheModel

/-- Python values that flow through the cache facade.  `pyBool` is kept
separate from `pyInt` because the source treats booleans specially
(`isinstance(value, bool)`), even though Python's `bool` is an `int`. -/
inductive PyVal where
  | pyNone : PyVal
  | pyBool : Bool → PyVal
  | pyInt : ℤ → PyVal
  | pyStr : String → PyVal
  deriving DecidableEq, Repr

/-- The raw bytes a Redis node stores for one key.  `wInt z` models the
decimal text form of the integer `z` (what redis-py sends for a Python
`int`); `wPickle v` models the pickle serialization of `v`.  The two are
disjoint in the model because a protocol-0 pickle always ends in `'.'`
and therefore never parses as a Python integer literal. -/
inductive Wire where
  | wInt : ℤ → Wire
  | wPickle : PyVal → Wire
  deriving DecidableEq, Repr

/-- `serialize` (source line 280): `pickle.dumps(value)`. -/
def serialize (v : PyVal) : Wire := Wire.wPickle v

/-- `deserialize` (source line 283): `pickle.loads(value)`; fails on bytes
that are not a pickle (a bare decimal integer is not one). -/
def deserialize : Wire → Option PyVal
  | Wire.wPickle v => some v
  | Wire.wInt _ => none

/-- Python `int(original)` applied to raw bytes from the node: succeeds
exactly on decimal-integer text. -/
def intParseWire : Wire → Option ℤ
  | Wire.wInt z => some z
  | Wire.wPickle _ => none

/-- `get_value` (source lines 166-171): try `int(original)` first and fall
back to unpickling.  The fallback branch on `wInt` is unreachable, because
`intParseWire` succeeds there. -/
def get_value (w : Wire) : PyVal :=
  match intParseWire w with
  | some z => PyVal.pyInt z
  | none =>
    match w with
    | Wire.wPickle v => v
    | Wire.wInt z => PyVal.pyInt z

/-- The branch test of `set` (source line 241):
`isinstance(value, int) and not isinstance(value, bool)`. -/
def isIntNotBool : PyVal → Bool
  | PyVal.pyInt _ => true
  | _ => false

/-- How `set` encodes a value before handing it to the node (source lines
240-244): integers that are not booleans go as decimal text, everything
else is pickled. -/
def encodeValue (v : PyVal) : Wire :=
  match v with
  | PyVal.pyInt z => Wire.wInt z
  | v => serialize v

/-- Python `+` restricted to what the `incr` fallback can meet:
`value + 1` where `value` came back from `get`.  Booleans act as 0/1,
`None` and strings raise `TypeError` when added to an integer. -/
def pyAdd : PyVal → PyVal → Except Unit PyVal
  | PyVal.pyInt a, PyVal.pyInt b => Except.ok (PyVal.pyInt (a + b))
  | PyVal.pyBool a, PyVal.pyInt b =>
      Except.ok (PyVal.pyInt ((if a then 1 else 0) + b))
  | PyVal.pyInt a, PyVal.pyBool b =>
      Except.ok (PyVal.pyInt (a + (if b then 1 else 0)))
  | PyVal.pyBool a, PyVal.pyBool b =>
      Except.ok (PyVal.pyInt ((if a then 1 else 0) + (if b then 1 else 0)))
  | _, _ => Except.error ()

/-- Python `int(q)` on a numeric timeout: truncation toward zero
(`Int.tdiv` is division rounding toward zero, and a rational's
denominator is positive). -/
def pyTrunc (q : ℚ) : ℤ := Int.tdiv q.num q.den

/-- One stored entry on a node: the raw value and the time-to-live last
set for it (`none` = no expiry).  Time itself is not modelled; the entry
records which expiry, if any, the client requested. -/
structure Entry where
  val : Wire
  ttl : Option ℤ
  deriving DecidableEq, Repr

/-- A node's keyspace, as an association list in insertion order. -/
abbrev KV : Type := List (String × Entry)

/-- Redis GET / EXISTS lookup. -/
def kvGet : KV → String → Option Entry
  | [], _ => none
  | (k', e) :: rest, k => if k' = k then some e else kvGet rest k

/-- Replace the entry under `k`, or append it if absent. -/
def kvPut : KV → String → Entry → KV
  | [], k, e => [(k, e)]
  | (k', e') :: rest, k, e =>
      if k' = k then (k, e) :: rest else (k', e') :: kvPut rest k e

/-- Remove the entry under `k`. -/
def kvDel : KV → String → KV
  | [], _ => []
  | (k', e') :: rest, k => if k' = k then rest else (k', e') :: kvDel rest k

/-- Redis EXISTS. -/
def kvExists (kv : KV) (k : String) : Bool := (kvGet kv k).isSome

/-- Redis SET: stores the value and discards any expiry. -/
def kvSet (kv : KV) (k : String) (w : Wire) : KV := kvPut kv k ⟨w, none⟩

/-- Redis SETEX: stores the value with an expiry of `t` seconds. -/
def kvSetex (kv : KV) (k : String) (w : Wire) (t : ℤ) : KV :=
  kvPut kv k ⟨w, some t⟩

/-- Redis SETNX: stores only when the key is absent; returns whether it
stored. -/
def kvSetnx (kv : KV) (k : String) (w : Wire) : Bool × KV :=
  match kvGet kv k with
  | some _ => (false, kv)
  | none => (true, kvPut kv k ⟨w, none⟩)

/-- Redis EXPIRE on an existing key. -/
def kvExpire (kv : KV) (k : String) (t : ℤ) : KV :=
  match kvGet kv k with
  | none => kv
  | some e => kvPut kv k ⟨e.val, some t⟩

/-- Redis INCRBY: integer text is incremented in place (keeping the
entry's ttl, as Redis does); a missing key counts as 0; anything else is
a `ResponseError`. -/
def kvIncr (kv : KV) (k : String) (d : ℤ) : Except Unit (ℤ × KV) :=
  match kvGet kv k with
  | none => Except.ok (d, kvPut kv k ⟨Wire.wInt d, none⟩)
  | some e =>
    match e.val with
    | Wire.wInt z => Except.ok (z + d, kvPut kv k ⟨Wire.wInt (z + d), e.ttl⟩)
    | Wire.wPickle _ => Except.error ()

/-- Redis RENAME: `ResponseError` when the source is absent, otherwise the
whole entry (value bytes and ttl) moves, overwriting any entry already at
the destination. -/
def kvRename (kv : KV) (old new_ : String) : Except Unit KV :=
  match kvGet kv old with
  | none => Except.error ()
  | some e => Except.ok (kvPut (kvDel kv old) new_ e)

/-- Redis MGET of a single key: the raw value or nothing. -/
def kvMgetOne (kv : KV) (k : String) : Option Wire := (kvGet kv k).map Entry.val

/-- A deterministic string hash (a small polynomial hash over the
character codes), used by the modelled sharder. -/
def strHash (s : String) : ℕ :=
  s.data.foldl (fun a c => (a * 31 + c.toNat) % 1000003) 7

/-- Modelled from the spec: `CacheSharder.get_client`
(`redis_cache/sharder.py` is not among the sources). Spec section 4.2: a
deterministic hash of the key it is handed, combined with the set of
registered labels, selects one client; a consistent-hash-style scheme, so
rendezvous hashing over the labels: the label whose combined hash with the
key is smallest wins (first label on a tie).  Returns the index of the
winning (client, label) pair. -/
def sharderGetClient (labels : List String) (key : String) : ℕ :=
  (List.range labels.length).foldl
    (fun best i =>
      if strHash ((labels.getD i "") ++ "/" ++ key)
           < strHash ((labels.getD best "") ++ "/" ++ key) then i else best)
    0

/-- The configuration a constructed `RedisCache` carries: the key prefix
and default version used by the key codec (`BaseCache` configuration), the
default timeout, and the sharder's registered node labels (`"host:port"`
per server, source line 124). -/
structure Config where
  keyPref : String
  version : ℤ
  defaultTimeout : ℚ
  labels : List String
  deriving DecidableEq, Repr

/-- A logical key as the facade sees it: either a raw caller key or an
already-encoded `CacheKey` (the stub string class of source lines 23-43,
used by `make_key` to avoid double-encoding). -/
inductive CKey where
  | raw : String → CKey
  | cacheKey : String → CKey
  deriving DecidableEq, Repr

/-- The string a key renders to (`CacheKey.__str__` returns the encoded
text unchanged); this is what the sharder hashes. -/
def keyStr : CKey → String
  | CKey.raw s => s
  | CKey.cacheKey s => s

/-- Modelled from the spec: Django's default key function
(`BaseCache.make_key`, outside this repository), spec section 4.3: the
encoded key is built from the namespace prefix, the version (the default
when none is supplied) and the raw key. -/
def encStr (cfg : Config) (k : String) (version : Option ℤ) : String :=
  cfg.keyPref ++ ":" ++ toString (version.getD cfg.version) ++ ":" ++ k

/-- `make_key` (source lines 185-189): encode a raw key, return an
already-encoded `CacheKey` unchanged. -/
def make_key (cfg : Config) (k : CKey) (version : Option ℤ) : CKey :=
  match k with
  | CKey.cacheKey s => CKey.cacheKey s
  | CKey.raw s => CKey.cacheKey (encStr cfg s version)

/-- The whole cache state: one keyspace per registered node, in label
order. -/
abbrev CacheState : Type := List KV

/-- The keyspace of node `i` (an empty node when out of range). -/
def nodeOf (σ : CacheState) (i : ℕ) : KV := σ.getD i []

/-- Replace node `i`'s keyspace. -/
def withNode (σ : CacheState) (i : ℕ) (kv : KV) : CacheState := σ.set i kv

/-- `get_client` (source lines 173-174): the facade hands the key it was
called with — raw or already encoded — to the sharder. -/
def get_client (cfg : Config) (k : CKey) : ℕ :=
  sharderGetClient cfg.labels (keyStr k)

/-- Exceptions the facade can raise. -/
inductive PyErr where
  | valueError : PyErr
  | typeError : PyErr
  deriving DecidableEq, Repr

instance {ε α : Type} [DecidableEq ε] [DecidableEq α] :
    DecidableEq (Except ε α) := fun a b =>
  match a, b with
  | Except.ok x, Except.ok y =>
    if h : x = y then isTrue (by rw [h])
    else isFalse (fun hh => h (Except.ok.inj hh))
  | Except.error x, Except.error y =>
    if h : x = y then isTrue (by rw [h])
    else isFalse (fun hh => h (Except.error.inj hh))
  | Except.ok _, Except.error _ => isFalse (fun hh => Except.noConfusion hh)
  | Except.error _, Except.ok _ => isFalse (fun hh => Except.noConfusion hh)

/-- `_set` (source lines 216-229).  `timeout` is already `int(timeout)`
here.  `timeout == 0`: plain SET (or SETNX in add-only mode);
`timeout > 0`: SETEX (or SETNX followed by EXPIRE in add-only mode);
anything else: store nothing and report `False`. -/
def _set (kv : KV) (k : String) (w : Wire) (timeout : ℤ) (addOnly : Bool) :
    Bool × KV :=
  if timeout = 0 then
    if addOnly then kvSetnx kv k w
    else (true, kvSet kv k w)
  else if 0 < timeout then
    if addOnly then
      let r := kvSetnx kv k w
      if r.1 then (true, kvExpire r.2 k timeout) else (false, r.2)
    else (true, kvSetex kv k w timeout)
  else (false, kv)

/-- `set` (source lines 231-246): resolve the client from the key as
given, encode the key, default the timeout, pick the integer fast path or
the pickle path, and delegate to `_set` with the truncated timeout. -/
def set (cfg : Config) (σ : CacheState) (k : CKey) (v : PyVal)
    (timeout : Option ℚ) (version : Option ℤ) (client : Option ℕ)
    (addOnly : Bool) : Bool × CacheState :=
  let c := client.getD (get_client cfg k)
  let key := keyStr (make_key cfg k version)
  let t := timeout.getD cfg.defaultTimeout
  let r := _set (nodeOf σ c) key (encodeValue v) (pyTrunc t) addOnly
  (r.1, withNode σ c r.2)

/-- `add` (source lines 191-200): existence-check at the requested
version, then delegate to `set` in add-only mode — without forwarding the
version (the source passes only `key, value, timeout, _add_only=True`). -/
def add (cfg : Config) (σ : CacheState) (k : CKey) (v : PyVal)
    (timeout : Option ℚ) (version : Option ℤ) : Bool × CacheState :=
  let c := get_client cfg k
  if kvExists (nodeOf σ c) (keyStr (make_key cfg k version)) then (false, σ)
  else set cfg σ k v timeout none none true

/-- `get` (source lines 202-214): read from the client resolved from the
key as given; absent keys yield the caller's default, present ones are
decoded by `get_value`. -/
def get (cfg : Config) (σ : CacheState) (k : CKey) (dflt : PyVal)
    (version : Option ℤ) : PyVal :=
  let c := get_client cfg k
  let key := keyStr (make_key cfg k version)
  match kvGet (nodeOf σ c) key with
  | none => dflt
  | some e => get_value e.val

/-- `incr` (source lines 329-344): raise `ValueError` when the key is
absent; otherwise try the node's atomic INCRBY, and on a `ResponseError`
fall back to `self.get(key) + 1` followed by `self.set(key, value)` —
both called with the already-encoded `CacheKey`, so both re-resolve their
client by hashing the encoded string. -/
def incr (cfg : Config) (σ : CacheState) (k : CKey) (delta : ℤ)
    (version : Option ℤ) : Except PyErr (PyVal × CacheState) :=
  let c := get_client cfg k
  let key := make_key cfg k version
  if kvExists (nodeOf σ c) (keyStr key) = false then Except.error PyErr.valueError
  else
    match kvIncr (nodeOf σ c) (keyStr key) delta with
    | Except.ok r => Except.ok (PyVal.pyInt r.1, withNode σ c r.2)
    | Except.error _ =>
      match pyAdd (get cfg σ key PyVal.pyNone none) (PyVal.pyInt 1) with
      | Except.error _ => Except.error PyErr.typeError
      | Except.ok v' => Except.ok (v', (set cfg σ key v' none none none false).2)

/-- `incr_version` (source lines 346-362): RENAME the encoded key at the
current version to the encoded key at `version + delta`; `ValueError`
when the source key does not exist; returns the new version. -/
def incr_version (cfg : Config) (σ : CacheState) (k : CKey) (delta : ℤ)
    (version : Option ℤ) : Except PyErr (ℤ × CacheState) :=
  let ver := version.getD cfg.version
  let c := get_client cfg k
  let old := make_key cfg k (some ver)
  let new_ := make_key cfg k (some (ver + delta))
  match kvRename (nodeOf σ c) (keyStr old) (keyStr new_) with
  | Except.error _ => Except.error PyErr.valueError
  | Except.ok kv' => Except.ok (ver + delta, withNode σ c kv')

/-- One step of `shard`'s `defaultdict(list)` (source lines 176-183):
append `k` to the group of client `c`, creating the group at the end on
first sight of `c`. -/
def addToGroup : List (ℕ × List String) → ℕ → String → List (ℕ × List String)
  | [], c, k => [(c, [k])]
  | (c', ks) :: rest, c, k =>
      if c' = c then (c', ks ++ [k]) :: rest
      else (c', ks) :: addToGroup rest c k

/-- `shard` (source lines 176-183): group the raw keys by the client the
sharder assigns them, keeping first-seen client order and per-client key
order. -/
def shard (cfg : Config) (keys : List String) : List (ℕ × List String) :=
  keys.foldl (fun acc k => addToGroup acc (get_client cfg (CKey.raw k)) k) []

/-- `_get_many` (source lines 290-305): encode the keys, issue one MGET,
and keep, per original key and in response order, the decoded value of
each key the node had; absent keys contribute nothing. -/
def _get_many (cfg : Config) (kv : KV) (keys : List String)
    (version : Option ℤ) : List (String × PyVal) :=
  let new_keys := keys.map (fun k => encStr cfg k version)
  let results := new_keys.map (kvMgetOne kv)
  (keys.zip results).filterMap
    (fun p => p.2.map (fun w => (p.1, get_value w)))

/-- `get_many` (source lines 307-312): shard the keys, run `_get_many`
once per shard, and merge.  The `version` argument is accepted but not
forwarded to `_get_many`, which therefore encodes with the default
version. -/
def get_many (cfg : Config) (σ : CacheState) (keys : List String)
    (version : Option ℤ) : List (String × PyVal) :=
  (shard cfg keys).foldl
    (fun acc g => acc ++ _get_many cfg (nodeOf σ g.1) g.2 none) []

/-- Lookup in the merged result, with `dict` semantics (the groups are
disjoint and duplicate keys in one group carry equal values, so the first
match is the dict's value). -/
def lookupVal : List (String × PyVal) → String → Option PyVal
  | [], _ => none
  | (k', v) :: rest, k => if k' = k then some v else lookupVal rest k

/-- The nodes `get_many` sends one MGET each to, in order. -/
def mgetClients (cfg : Config) (keys : List String) : List ℕ :=
  (shard cfg keys).map Prod.fst

/-- The full identity a node client is constructed with (spec section 3's
NodeIdentity): host, port, logical db, password, parser variant and unix
socket path.  The parser variant is its dotted name. -/
structure NodeIdentity where
  host : Option String
  port : Option ℤ
  db : ℤ
  password : Option String
  parserVariant : String
  unixSocketPath : Option String
  deriving DecidableEq, Repr

/-- The tuple `CacheConnectionPool.get_connection_pool` keys its registry
by (source line 54): `(host, port, db, parser_class, unix_socket_path)` —
the password is not one of its fields. -/
structure PoolKey where
  host : Option String
  port : Option ℤ
  db : ℤ
  parserVariant : String
  unixSocketPath : Option String
  deriving DecidableEq, Repr

/-- The registry key built from a node identity (source line 54). -/
def connectionIdentifier (i : NodeIdentity) : PoolKey :=
  ⟨i.host, i.port, i.db, i.parserVariant, i.unixSocketPath⟩

/-- The registry's state: the identifier of every pool created so far, in
creation order.  A pool instance is named by its creation index, so the
`n`-th `redis.ConnectionPool(...)` ever constructed is pool `n`. -/
abbrev Registry : Type := List PoolKey

/-- First index of `x` in the registry list, if present. -/
def regIdx : Registry → PoolKey → Option ℕ
  | [], _ => none
  | x' :: rest, x =>
      if x' = x then some 0 else (regIdx rest x).map (· + 1)

/-- `get_connection_pool` (source lines 51-73): look the identifier up;
on a miss construct a fresh pool and record it.  Returns the pool (by
creation index) and the registry after the call. -/
def get_connection_pool (st : Registry) (i : NodeIdentity) : ℕ × Registry :=
  match regIdx st (connectionIdentifier i) with
  | some n => (n, st)
  | none => (st.length, st ++ [connectionIdentifier i])

/-- A sequence of further `get_connection_pool` calls. -/
def applyCalls (st : Registry) (is : List NodeIdentity) : Registry :=
  is.foldl (fun s i => (get_connection_pool s i).2) st

/-- Errors construction can raise.  `improperlyConfigured` is Django's
`ImproperlyConfigured` (the spec's ConfigurationError class);
`unboundLocalError` is Python's error for reading a local variable before
assignment. -/
inductive InitErr where
  | improperlyConfigured : InitErr
  | unboundLocalError : InitErr
  deriving DecidableEq, Repr

/-- The value of a nonempty all-digit character list, else `none`. -/
def digitsToNat : List Char → Option ℕ
  | [] => none
  | l =>
    if l.all Char.isDigit
    then some (l.foldl (fun a c => a * 10 + (c.toNat - 48)) 0)
    else none

/-- Python `int(s)` on a string: an optional sign followed by digits. -/
def pyStrToInt (s : String) : Option ℤ :=
  match s.data with
  | '-' :: rest => (digitsToNat rest).map (fun n => -(n : ℤ))
  | '+' :: rest => (digitsToNat rest).map (fun n => (n : ℤ))
  | l => (digitsToNat l).map (fun n => (n : ℤ))

/-- Python `int(x)` on a parameter value: ints pass through, booleans
become 0/1, strings parse or raise, `None` raises `TypeError`. -/
def pyToInt : PyVal → Option ℤ
  | PyVal.pyInt z => some z
  | PyVal.pyBool b => some (if b then 1 else 0)
  | PyVal.pyStr s => pyStrToInt s
  | PyVal.pyNone => none

/-- The `db` property (source lines 134-141): coerce the configured value
with `int(...)`; `ValueError`/`TypeError` become `ImproperlyConfigured`. -/
def dbProp (dbParam : PyVal) : Except InitErr ℤ :=
  match pyToInt dbParam with
  | some z => Except.ok z
  | none => Except.error InitErr.improperlyConfigured

/-- Split a character list on a separator character. -/
def splitChar : List Char → Char → List (List Char)
  | [], _ => [[]]
  | ch :: rest, c =>
    match splitChar rest c with
    | [] => [[]]
    | g :: gs => if ch = c then [] :: g :: gs else (ch :: g) :: gs

/-- Split a string at its last occurrence of the character `sep`, as
Python `s.rsplit(sep, 1)` does for a string containing `sep`. -/
def rsplit1 (s : String) (sep : Char) : String × String :=
  let parts := splitChar s.data sep
  (⟨List.intercalate [sep] parts.dropLast⟩, ⟨parts.getLastD []⟩)

/-- The `parser_class` property (source lines 147-158).  `resolve mod cls`
stands for `getattr(importlib.import_module(mod), cls)` succeeding.  When
resolution fails, the source's `except` branch builds its message from the
local variable `parser_class`, which was never assigned on that path — so
Python raises `UnboundLocalError` instead of the intended
`ImproperlyConfigured`. -/
def parser_class (resolve : String → String → Bool) (cls : Option String) :
    Except InitErr Unit :=
  match cls with
  | none => Except.ok ()
  | some c =>
    let mc := rsplit1 c '.'
    if resolve mc.1 mc.2 then Except.ok ()
    else Except.error InitErr.unboundLocalError

/-- One server address as `_init` parses it (source lines 96-106): a
string with `':'` splits into host and an integer port
(`ImproperlyConfigured` when `int(port)` fails), anything else is a unix
socket path. -/
def parseServer (server : String) :
    Except InitErr (Option String × Option ℤ × Option String) :=
  if server.data.contains ':' then
    let hp := rsplit1 server ':'

    match pyStrToInt hp.2 with
    | some p => Except.ok (some hp.1, some p, none)
    | none => Except.error InitErr.improperlyConfigured
  else Except.ok (none, none, some server)

/-- `_init` (source lines 84-124), up to the pool and client construction:
for each server, parse the address, evaluate the `db` property and the
`parser_class` property (both read during the loop, so all three
configuration errors surface at construction time).  Returns the node
identities the clients would be built with. -/
def _init (resolve : String → String → Bool) (servers : List String)
    (dbParam : PyVal) (password : Option String) (parserParam : Option String) :
    Except InitErr (List NodeIdentity) :=
  servers.foldlM
    (fun acc server => do
      let hps ← parseServer server
      let db ← dbProp dbParam
      let _ ← parser_class resolve parserParam
      pure (acc ++ [⟨hps.1, hps.2.1, db, password,
                     parserParam.getD "redis.connection.DefaultParser",
                     hps.2.2⟩]))
    []

/-- A keyspace is well formed when no key repeats (Redis keyspaces are
maps; every state the modelled verbs build from a well-formed one is well
formed). -/
def kvWF (kv : KV) : Prop := (kv.map Prod.fst).Nodup

instance (kv : KV) : Decidable (kvWF kv) :=
  inferInstanceAs (Decidable ((kv.map Prod.fst).Nodup))

/-- First group lookup in a `shard` result (the `defaultdict` read back). -/
def findGroup : List (ℕ × List String) → ℕ → Option (List String)
  | [], _ => none
  | (c', ks) :: rest, c => if c' = c then some ks else findGroup rest c

/-- A one-node configuration: prefix `"p"`, default version 1, default
timeout 300 seconds, one server `"h:6379"`. -/
def cfg1 : Config := ⟨"p", 1, 300, ["h:6379"]⟩

/-- A two-node configuration. -/
def cfg4 : Config := ⟨"p", 1, 300, ["h1:6379", "h2:6379"]⟩

/-- One empty node. -/
def st0 : CacheState := [[]]

/-- Two nodes; node 0 holds the encoded key `"p:1:k"`. -/
def st4 : CacheState := [[("p:1:k", ⟨Wire.wInt 7, none⟩)], []]

/-- One node holding a pickled string under `"p:1:k"`. -/
def st5 : CacheState := [[("p:1:k", ⟨Wire.wPickle (PyVal.pyStr "abc"), none⟩)]]

/-- One node holding a pickled boolean under `"p:1:k"`. -/
def st5b : CacheState := [[("p:1:k", ⟨Wire.wPickle (PyVal.pyBool true), none⟩)]]

/-- One node holding `"p:1:k" ↦ 5` and `"p:2:k" ↦ 99`. -/
def st6 : CacheState :=
  [[("p:1:k", ⟨Wire.wInt 5, none⟩), ("p:2:k", ⟨Wire.wInt 99, none⟩)]]

/-- A node identity with password `"pw1"`. -/
def identA : NodeIdentity :=
  ⟨some "h", some 6379, 1, some "pw1", "redis.connection.DefaultParser", none⟩

/-- The same node identity except for its password. -/
def identB : NodeIdentity :=
  ⟨some "h", some 6379, 1, some "pw2", "redis.connection.DefaultParser", none⟩

theorem kvGet_kvPut_self (kv : KV) (k : String) (e : Entry) :
    kvGet (kvPut kv k e) k = some e := by
  induction kv with
  | nil => simp [kvPut, kvGet]
  | cons p rest ih =>
    obtain ⟨k', e'⟩ := p
    by_cases h : k' = k
    · simp [kvPut, kvGet, h]
    · simp [kvPut, kvGet, h, ih]

theorem kvGet_kvPut_ne (kv : KV) (k q : String) (e : Entry) (h : q ≠ k) :
    kvGet (kvPut kv k e) q = kvGet kv q := by
  induction kv with
  | nil => simp [kvPut, kvGet, Ne.symm h]
  | cons p rest ih =>
    obtain ⟨k', e'⟩ := p
    by_cases hk : k' = k
    · subst hk
      simp [kvPut, kvGet, Ne.symm h]
    · by_cases hq : k' = q <;> simp [kvPut, kvGet, hk, hq, ih, h]

theorem kvGet_kvDel_ne (kv : KV) (k q : String) (h : q ≠ k) :
    kvGet (kvDel kv k) q = kvGet kv q := by
  induction kv with
  | nil => simp [kvDel, kvGet]
  | cons p rest ih =>
    obtain ⟨k', e'⟩ := p
    by_cases hk : k' = k
    · subst hk
      simp [kvDel, kvGet, Ne.symm h]
    · by_cases hq : k' = q <;> simp [kvDel, kvGet, hk, hq, ih, h]

theorem kvGet_none_of_not_mem (kv : KV) (k : String)
    (h : k ∉ kv.map Prod.fst) : kvGet kv k = none := by
  induction kv with
  | nil => rfl
  | cons p rest ih =>
    obtain ⟨k', e'⟩ := p
    simp only [List.map_cons, List.mem_cons] at h
    push_neg at h
    simp [kvGet, Ne.symm h.1, ih h.2]

theorem not_mem_of_kvGet_none (kv : KV) (k : String)
    (h : kvGet kv k = none) : k ∉ kv.map Prod.fst := by
  induction kv with
  | nil => simp
  | cons p rest ih =>
    obtain ⟨k', e'⟩ := p
    by_cases hk : k' = k
    · simp [kvGet, hk] at h
    · simp only [kvGet, if_neg hk] at h
      simp [Ne.symm hk, ih h]

theorem kvGet_kvDel_self (kv : KV) (k : String) (h : kvWF kv) :
    kvGet (kvDel kv k) k = none := by
  induction kv with
  | nil => simp [kvDel, kvGet]
  | cons p rest ih =>
    obtain ⟨k', e'⟩ := p
    have hpair := List.nodup_cons.mp h
    by_cases hk : k' = k
    · subst hk
      simp only [kvDel, if_pos rfl]
      exact kvGet_none_of_not_mem rest k' hpair.1
    · simp [kvDel, kvGet, hk, ih hpair.2]

theorem kvPut_of_absent (kv : KV) (k : String) (e : Entry)
    (h : kvGet kv k = none) : kvPut kv k e = kv ++ [(k, e)] := by
  induction kv with
  | nil => simp [kvPut]
  | cons p rest ih =>
    obtain ⟨k', e'⟩ := p
    by_cases hk : k' = k
    · simp [kvGet, hk] at h
    · simp only [kvGet, if_neg hk] at h
      simp [kvPut, hk, ih h]

theorem kvGet_append_absent (kv : KV) (k : String) (e : Entry)
    (h : kvGet kv k = none) : kvGet (kv ++ [(k, e)]) k = some e := by
  induction kv with
  | nil => simp [kvGet]
  | cons p rest ih =>
    obtain ⟨k', e'⟩ := p
    by_cases hk : k' = k
    · simp [kvGet, hk] at h
    · simp only [kvGet, if_neg hk] at h ⊢
      exact ih h

theorem kvPut_append_of_absent (kv : KV) (k : String) (a b : Entry)
    (h : kvGet kv k = none) :
    kvPut (kv ++ [(k, a)]) k b = kv ++ [(k, b)] := by
  induction kv with
  | nil => simp [kvPut]
  | cons p rest ih =>
    obtain ⟨k', e'⟩ := p
    by_cases hk : k' = k
    · simp [kvGet, hk] at h
    · simp only [kvGet, if_neg hk] at h
      simp [kvPut, hk, ih h]

theorem kvExpire_fresh (kv : KV) (k : String) (w : Wire) (t : ℤ)
    (h : kvGet kv k = none) :
    kvExpire (kv ++ [(k, ⟨w, none⟩)]) k t = kv ++ [(k, ⟨w, some t⟩)] := by
  simp only [kvExpire, kvGet_append_absent kv k ⟨w, none⟩ h]
  exact kvPut_append_of_absent kv k _ _ h

theorem withNode_nodeOf_self (σ : CacheState) (c : ℕ) :
    withNode σ c (nodeOf σ c) = σ := by
  induction σ generalizing c with
  | nil => cases c <;> rfl
  | cons kv rest ih =>
    cases c with
    | zero => rfl
    | succ n =>
      show kv :: withNode rest n (nodeOf rest n) = kv :: rest
      rw [ih]

theorem nodeOf_withNode_self (σ : CacheState) (c : ℕ) (kv : KV)
    (h : c < σ.length) : nodeOf (withNode σ c kv) c = kv := by
  induction σ generalizing c with
  | nil => simp at h
  | cons kv0 rest ih =>
    cases c with
    | zero => rfl
    | succ n =>
      show nodeOf (withNode rest n kv) n = kv
      exact ih n (Nat.lt_of_succ_lt_succ h)

theorem lt_length_of_kvGet_some (σ : CacheState) (c : ℕ) (q : String)
    (e : Entry) (h : kvGet (nodeOf σ c) q = some e) : c < σ.length := by
  induction σ generalizing c with
  | nil =>
    exfalso
    have : nodeOf ([] : CacheState) c = [] := by cases c <;> rfl
    rw [this] at h
    exact Option.noConfusion h
  | cons kv rest ih =>
    cases c with
    | zero => exact Nat.succ_pos _
    | succ n => exact Nat.succ_lt_succ (ih n h)

/-- Evaluation of `set` with no explicit client and `_add_only = False`,
folding the three `_set` branches into one normal form: a negative
truncated timeout stores nothing and returns `False`; otherwise the value
is stored on the sharded node, with no expiry for 0 and an expiry of the
truncated timeout when positive. -/
theorem set_false_eval (cfg : Config) (σ : CacheState) (ck : CKey)
    (v : PyVal) (t : Option ℚ) (ver : Option ℤ) :
    set cfg σ ck v t ver none false =
      (if pyTrunc (t.getD cfg.defaultTimeout) < 0 then (false, σ)
       else (true, withNode σ (get_client cfg ck)
        (kvPut (nodeOf σ (get_client cfg ck)) (keyStr (make_key cfg ck ver))
          ⟨encodeValue v,
            if pyTrunc (t.getD cfg.defaultTimeout) = 0 then none
            else some (pyTrunc (t.getD cfg.defaultTimeout))⟩))) := by
  rcases lt_trichotomy (pyTrunc (t.getD cfg.defaultTimeout)) 0 with h | h | h
  · simp [set, _set, h, Int.ne_of_lt h, not_lt_of_lt h, withNode_nodeOf_self]
  · simp [set, _set, h, kvSet]
  · simp [set, _set, Int.ne_of_gt h, not_lt_of_lt h, h, kvSetex]

/-- C7 (confirmed): non-boolean integers are written as their decimal
text form (`Wire.wInt`) bypassing the serializer; booleans, strings and
`None` are serialized; `get_value` probes for an integer first and falls
back to deserialization, so every value written by `set`'s encoder reads
back as itself, every stored native integer reads back as that integer,
and `deserialize ∘ serialize` is the identity. -/
theorem value_codec_spec :
    (∀ v : PyVal, get_value (encodeValue v) = v) ∧
    (∀ z : ℤ, encodeValue (PyVal.pyInt z) = Wire.wInt z) ∧
    (∀ b : Bool, encodeValue (PyVal.pyBool b) = serialize (PyVal.pyBool b)) ∧
    (∀ s : String, encodeValue (PyVal.pyStr s) = serialize (PyVal.pyStr s)) ∧
    (encodeValue PyVal.pyNone = serialize PyVal.pyNone) ∧
    (∀ v : PyVal, deserialize (serialize v) = some v) ∧
    (∀ z : ℤ, get_value (Wire.wInt z) = PyVal.pyInt z) ∧
    (∀ w : Wire, intParseWire w = none → get_value w = (deserialize w).getD PyVal.pyNone) := by
  refine ⟨fun v => ?_, fun z => rfl, fun b => rfl, fun s => rfl, rfl,
    fun v => rfl, fun z => rfl, fun w hw => ?_⟩
  · cases v <;> rfl
  · cases w with
    | wInt z => exact absurd hw (by simp [intParseWire])
    | wPickle v => rfl

/-- C10 (confirmed): `get_many` accepts a `version` argument but never
forwards it to `_get_many`, so the result is the same whatever version the
caller supplies — the keys are always encoded with the default version. -/
theorem get_many_version_ignored (cfg : Config) (σ : CacheState)
    (keys : List String) (v w : Option ℤ) :
    get_many cfg σ keys v = get_many cfg σ keys w := rfl

/-- C2 counterexample: `set` with the negative timeout `-1/2` does not
report failure and does not leave the cache unchanged — `int(-0.5)` is 0,
so the value is stored with no expiry and the call returns `True`. -/
theorem set_negative_timeout_cex :
    set cfg1 st0 (CKey.raw "k") (PyVal.pyStr "v") (some (mkRat (-1) 2))
        none none false
      = (true, [[("p:1:k", ⟨Wire.wPickle (PyVal.pyStr "v"), none⟩)]]) ∧
    (mkRat (-1) 2 < (0 : ℚ)) := by
  constructor
  · decide
  · decide

/-- C2 (corrected): writing `i` for the timeout truncated toward zero
(Python `int(t)`), `set(key, value, timeout=t)` stores the value with no
expiry when `i = 0`, stores it with an expiry of `i` whole seconds when
`i > 0`, and stores nothing and returns `False` when `i < 0`.  (The claim
as frozen said this held of the sign of `t` itself; a fractional negative
timeout such as `-1/2` truncates to 0 and is stored.) -/
theorem set_timeout_policy (cfg : Config) (σ : CacheState) (k : String)
    (v : PyVal) (t : ℚ) :
    set cfg σ (CKey.raw k) v (some t) none none false =
      (if pyTrunc t < 0 then (false, σ)
       else (true, withNode σ (get_client cfg (CKey.raw k))
        (kvPut (nodeOf σ (get_client cfg (CKey.raw k))) (encStr cfg k none)
          ⟨encodeValue v, if pyTrunc t = 0 then none else some (pyTrunc t)⟩))) :=
  set_false_eval cfg σ (CKey.raw k) v (some t) none

/-- Evaluation of `set` in add-only mode: a negative truncated timeout or
a key already present yields `False` and leaves the state unchanged;
otherwise the value is stored with the same expiry policy as a plain
`set` (SETNX, then EXPIRE when the timeout is positive). -/
theorem set_true_eval (cfg : Config) (σ : CacheState) (ck : CKey)
    (v : PyVal) (t : Option ℚ) (ver : Option ℤ) :
    set cfg σ ck v t ver none true =
      (if pyTrunc (t.getD cfg.defaultTimeout) < 0 then (false, σ)
       else if kvExists (nodeOf σ (get_client cfg ck))
                (keyStr (make_key cfg ck ver)) then (false, σ)
       else (true, withNode σ (get_client cfg ck)
        (kvPut (nodeOf σ (get_client cfg ck)) (keyStr (make_key cfg ck ver))
          ⟨encodeValue v,
            if pyTrunc (t.getD cfg.defaultTimeout) = 0 then none
            else some (pyTrunc (t.getD cfg.defaultTimeout))⟩))) := by
  rcases lt_trichotomy (pyTrunc (t.getD cfg.defaultTimeout)) 0 with h | h | h
  · simp [set, _set, h, Int.ne_of_lt h, not_lt_of_lt h, withNode_nodeOf_self]
  · cases hkv : kvGet (nodeOf σ (get_client cfg ck)) (keyStr (make_key cfg ck ver)) with
    | none =>
      simp [set, _set, h, kvSetnx, kvExists, hkv]
    | some e =>
      simp [set, _set, h, kvSetnx, kvExists, hkv, withNode_nodeOf_self]
  · cases hkv : kvGet (nodeOf σ (get_client cfg ck)) (keyStr (make_key cfg ck ver)) with
    | none =>
      rw [kvPut_of_absent _ _ _ hkv]
      simp [set, _set, Int.ne_of_gt h, not_lt_of_lt h, h, kvSetnx, kvExists, hkv,
        kvPut_of_absent _ _ _ hkv, kvExpire_fresh _ _ _ _ hkv]
    | some e =>
      simp [set, _set, Int.ne_of_gt h, not_lt_of_lt h, h, kvSetnx, kvExists, hkv,
        withNode_nodeOf_self]

/-- C1 counterexample: with default version 1, `add("k", "v",
version=2)` on an empty cache returns `True`, yet nothing is stored under
the encoded key for version 2 — the value lands under the encoded key for
the default version 1, because `add` does not forward `version` to
`set`. -/
theorem add_stores_default_version_cex :
    (add cfg1 st0 (CKey.raw "k") (PyVal.pyStr "v") none (some 2)).1 = true ∧
    kvGet (nodeOf (add cfg1 st0 (CKey.raw "k") (PyVal.pyStr "v") none (some 2)).2 0)
        (encStr cfg1 "k" (some 2)) = none ∧
    kvGet (nodeOf (add cfg1 st0 (CKey.raw "k") (PyVal.pyStr "v") none (some 2)).2 0)
        (encStr cfg1 "k" none)
      = some ⟨Wire.wPickle (PyVal.pyStr "v"), some 300⟩ := by decide

/-- C1 (corrected): `add(k, v, t, version=ver)` returns `True` iff the
encoded key for `(k, ver)` and the encoded key for `(k, default-version)`
are both absent and the timeout (the default when `None`) truncates to a
nonnegative integer; when it returns `True` the value is stored under the
encoded key for the **default** version (not `ver` — the version is not
forwarded to `set`), with no expiry for 0 and the truncated timeout as
expiry otherwise; when it returns `False` the cache is unchanged. -/
theorem add_spec (cfg : Config) (σ : CacheState) (k : String) (v : PyVal)
    (t : Option ℚ) (ver : Option ℤ) :
    (add cfg σ (CKey.raw k) v t ver).1
      = (!kvExists (nodeOf σ (get_client cfg (CKey.raw k))) (encStr cfg k ver)
         && !kvExists (nodeOf σ (get_client cfg (CKey.raw k))) (encStr cfg k none)
         && decide (0 ≤ pyTrunc (t.getD cfg.defaultTimeout))) ∧
    (add cfg σ (CKey.raw k) v t ver).2
      = (if (add cfg σ (CKey.raw k) v t ver).1
         then withNode σ (get_client cfg (CKey.raw k))
            (kvPut (nodeOf σ (get_client cfg (CKey.raw k))) (encStr cfg k none)
              ⟨encodeValue v,
                if pyTrunc (t.getD cfg.defaultTimeout) = 0 then none
                else some (pyTrunc (t.getD cfg.defaultTimeout))⟩)
         else σ) := by
  have hk1 : keyStr (make_key cfg (CKey.raw k) ver) = encStr cfg k ver := rfl
  by_cases hex : kvExists (nodeOf σ (get_client cfg (CKey.raw k))) (encStr cfg k ver)
  · constructor
    · simp [add, hk1, hex]
    · simp [add, hk1, hex]
  · have hadd : add cfg σ (CKey.raw k) v t ver
        = set cfg σ (CKey.raw k) v t none none true := by
      simp [add, hk1, hex]
    rw [hadd, set_true_eval]
    have hkey : keyStr (make_key cfg (CKey.raw k) none) = encStr cfg k none := rfl
    rw [hkey]
    rcases lt_trichotomy (pyTrunc (t.getD cfg.defaultTimeout)) 0 with h | h | h
    · simp [h, hex, not_le_of_lt h]
    · by_cases he2 : kvExists (nodeOf σ (get_client cfg (CKey.raw k))) (encStr cfg k none)
      · simp [h, hex, he2]
      · simp [h, hex, he2]
    · by_cases he2 : kvExists (nodeOf σ (get_client cfg (CKey.raw k))) (encStr cfg k none)
      · simp [Int.ne_of_gt h, not_lt_of_lt h, hex, he2, le_of_lt h]
      · simp [Int.ne_of_gt h, not_lt_of_lt h, hex, he2, le_of_lt h]

theorem regIdx_get (st : Registry) (x : PoolKey) (n : ℕ)
    (h : regIdx st x = some n) : st.get? n = some x := by
  induction st generalizing n with
  | nil => exact Option.noConfusion h
  | cons y rest ih =>
    by_cases hy : y = x
    · simp only [regIdx, if_pos hy] at h
      obtain rfl : (0 : ℕ) = n := Option.some.inj h
      simpa using hy
    · simp only [regIdx, if_neg hy, Option.map_eq_some'] at h
      obtain ⟨m, hm, rfl⟩ := h
      simpa using ih m hm

theorem regIdx_lt (st : Registry) (x : PoolKey) (n : ℕ)
    (h : regIdx st x = some n) : n < st.length := by
  have := regIdx_get st x n h
  exact (List.get?_eq_some.mp this).1

theorem regIdx_append (st Δ : Registry) (x : PoolKey) (n : ℕ)
    (h : regIdx st x = some n) : regIdx (st ++ Δ) x = some n := by
  induction st generalizing n with
  | nil => exact Option.noConfusion h
  | cons y rest ih =>
    by_cases hy : y = x
    · simp only [regIdx, if_pos hy] at h ⊢
      exact h
    · simp only [regIdx, if_neg hy, Option.map_eq_some'] at h ⊢
      obtain ⟨m, hm, rfl⟩ := h
      exact ⟨m, ih m hm, rfl⟩

theorem regIdx_append_self (st : Registry) (x : PoolKey)
    (h : regIdx st x = none) : regIdx (st ++ [x]) x = some st.length := by
  induction st with
  | nil => simp [regIdx]
  | cons y rest ih =>
    by_cases hy : y = x
    · simp [regIdx, hy] at h
    · simp only [regIdx, if_neg hy, Option.map_eq_none'] at h
      simp [regIdx, hy, ih h]

theorem get_connection_pool_mem (st : Registry) (i : NodeIdentity) :
    regIdx (get_connection_pool st i).2 (connectionIdentifier i)
      = some (get_connection_pool st i).1 := by
  cases h : regIdx st (connectionIdentifier i) with
  | none => simp [get_connection_pool, h, regIdx_append_self st _ h]
  | some n => simp [get_connection_pool, h]

theorem get_connection_pool_extends (st : Registry) (i : NodeIdentity) :
    ∃ Δ, (get_connection_pool st i).2 = st ++ Δ := by
  cases h : regIdx st (connectionIdentifier i) with
  | none => exact ⟨[connectionIdentifier i], by simp [get_connection_pool, h]⟩
  | some n => exact ⟨[], by simp [get_connection_pool, h]⟩

theorem applyCalls_extends (st : Registry) (ops : List NodeIdentity) :
    ∃ Δ, applyCalls st ops = st ++ Δ := by
  induction ops generalizing st with
  | nil => exact ⟨[], by simp [applyCalls]⟩
  | cons i rest ih =>
    obtain ⟨Δ1, h1⟩ := get_connection_pool_extends st i
    obtain ⟨Δ2, h2⟩ := ih (get_connection_pool st i).2
    refine ⟨Δ1 ++ Δ2, ?_⟩
    show applyCalls (get_connection_pool st i).2 rest = st ++ (Δ1 ++ Δ2)
    rw [h2, h1, List.append_assoc]

theorem regIdx_applyCalls (st : Registry) (ops : List NodeIdentity)
    (x : PoolKey) (n : ℕ) (h : regIdx st x = some n) :
    regIdx (applyCalls st ops) x = some n := by
  obtain ⟨Δ, hΔ⟩ := applyCalls_extends st ops
  rw [hΔ]
  exact regIdx_append st Δ x n h

theorem pool_fst_some (st : Registry) (i : NodeIdentity) (n : ℕ)
    (h : regIdx st (connectionIdentifier i) = some n) :
    (get_connection_pool st i).1 = n := by
  simp [get_connection_pool, h]

theorem pool_fst_none (st : Registry) (i : NodeIdentity)
    (h : regIdx st (connectionIdentifier i) = none) :
    (get_connection_pool st i).1 = st.length := by
  simp [get_connection_pool, h]

/-- C3 counterexample: two node identities that differ only in their
password are given the **same** pool by the registry — the password is
not part of the registry key, so the claim that identities differing in
any field (including the password) get distinct pools is false. -/
theorem pool_ignores_password_cex :
    identA.password ≠ identB.password ∧
    (get_connection_pool (get_connection_pool ([] : Registry) identA).2 identB).1
      = (get_connection_pool ([] : Registry) identA).1 := by decide

/-- C3 (corrected): the registry is keyed by `(host, port, db,
parser-variant, unix-socket-path)` — the password is **not** part of the
key.  From any registry state, after a request for identity `a` and any
further requests, a request for identity `b` returns the very pool
instance `a` got iff `b`'s five keyed fields equal `a`'s; in particular
identities differing only in password share one pool (and the first
requester's password wins, since the pool is built once). -/
theorem pool_registry_keying (st : Registry) (a b : NodeIdentity)
    (ops : List NodeIdentity) :
    (get_connection_pool (applyCalls (get_connection_pool st a).2 ops) b).1
      = (get_connection_pool st a).1
    ↔ connectionIdentifier b = connectionIdentifier a := by
  have hpa : regIdx (applyCalls (get_connection_pool st a).2 ops)
      (connectionIdentifier a) = some (get_connection_pool st a).1 :=
    regIdx_applyCalls _ ops _ _ (get_connection_pool_mem st a)
  cases hb : regIdx (applyCalls (get_connection_pool st a).2 ops)
      (connectionIdentifier b) with
  | some m =>
    have hbm := pool_fst_some _ b m hb
    constructor
    · intro heq
      have h1 := regIdx_get _ _ _ hb
      have h2 := regIdx_get _ _ _ hpa
      rw [hbm] at heq
      rw [heq] at h1
      exact Option.some.inj (h1.symm.trans h2)
    · intro heq
      rw [heq] at hb
      rw [hpa] at hb
      rw [hbm]
      exact (Option.some.inj hb).symm
  | none =>
    have hbn := pool_fst_none _ b hb
    constructor
    · intro heq
      exfalso
      rw [hbn] at heq
      have := regIdx_lt _ _ _ hpa
      omega
    · intro heq
      rw [heq, hpa] at hb
      exact Option.noConfusion hb

/-- C6 counterexample: `incr_version` on `"k"` (version 1 → 2) when an
entry already exists at the destination encoded key `"p:2:k"`: the rename
overwrites that entry (99 is lost, replaced by the moved 5), so the claim
that every other cache entry is left untouched is false. -/
theorem incr_version_overwrite_cex :
    kvGet (nodeOf st6 0) (encStr cfg1 "k" (some 2))
      = some ⟨Wire.wInt 99, none⟩ ∧
    incr_version cfg1 st6 (CKey.raw "k") 1 none
      = Except.ok (2, [[("p:2:k", ⟨Wire.wInt 5, none⟩)]]) := by decide

/-- C6 (corrected): `incr_version(key, delta)` renames the encoded key at
the current version to the encoded key at `version + delta` (moving the
stored value bytes and ttl unchanged), returns the new version, raises a
`ValueError` when the source key is absent, and leaves every cache entry
other than the source **and the destination** untouched: an entry already
stored at the destination encoded key is overwritten by the rename. -/
theorem incr_version_spec (cfg : Config) (σ : CacheState) (k : String)
    (delta : ℤ) (ver : Option ℤ)
    (h : kvWF (nodeOf σ (get_client cfg (CKey.raw k)))) :
    match kvGet (nodeOf σ (get_client cfg (CKey.raw k)))
        (encStr cfg k (some (ver.getD cfg.version))) with
    | none => incr_version cfg σ (CKey.raw k) delta ver
        = Except.error PyErr.valueError
    | some e =>
        incr_version cfg σ (CKey.raw k) delta ver
          = Except.ok (ver.getD cfg.version + delta,
              withNode σ (get_client cfg (CKey.raw k))
                (kvPut (kvDel (nodeOf σ (get_client cfg (CKey.raw k)))
                    (encStr cfg k (some (ver.getD cfg.version))))
                  (encStr cfg k (some (ver.getD cfg.version + delta))) e)) ∧
        (∀ q, kvGet (kvPut (kvDel (nodeOf σ (get_client cfg (CKey.raw k)))
                (encStr cfg k (some (ver.getD cfg.version))))
              (encStr cfg k (some (ver.getD cfg.version + delta))) e) q
            = if q = encStr cfg k (some (ver.getD cfg.version + delta))
              then some e
              else if q = encStr cfg k (some (ver.getD cfg.version)) then none
              else kvGet (nodeOf σ (get_client cfg (CKey.raw k))) q) := by
  have hold : keyStr (make_key cfg (CKey.raw k) (some (ver.getD cfg.version)))
      = encStr cfg k (some (ver.getD cfg.version)) := rfl
  have hnew : keyStr (make_key cfg (CKey.raw k)
        (some (ver.getD cfg.version + delta)))
      = encStr cfg k (some (ver.getD cfg.version + delta)) := rfl
  cases hsrc : kvGet (nodeOf σ (get_client cfg (CKey.raw k)))
      (encStr cfg k (some (ver.getD cfg.version))) with
  | none =>
    simp only [incr_version, kvRename, hold, hnew, hsrc]
  | some e =>
    refine ⟨by simp only [incr_version, kvRename, hold, hnew, hsrc], fun q => ?_⟩
    by_cases hq1 : q = encStr cfg k (some (ver.getD cfg.version + delta))
    · subst hq1
      simp [kvGet_kvPut_self]
    · rw [kvGet_kvPut_ne _ _ _ _ hq1, if_neg hq1]
      by_cases hq2 : q = encStr cfg k (some (ver.getD cfg.version))
      · subst hq2
        simp [kvGet_kvDel_self _ _ h]
      · rw [kvGet_kvDel_ne _ _ _ hq2, if_neg hq2]

/-- C6 witness: on `st6` (where `"p:1:k" ↦ 5`), `incr_version("k", 1)`
succeeds, returns version 2 and moves the entry to `"p:2:k"`. -/
theorem incr_version_spec_witness :
    incr_version cfg1 st6 (CKey.raw "k") 1 none
      = Except.ok (2, withNode st6 (get_client cfg1 (CKey.raw "k"))
          (kvPut (kvDel (nodeOf st6 (get_client cfg1 (CKey.raw "k")))
              (encStr cfg1 "k" (some 1))) (encStr cfg1 "k" (some 2))
            ⟨Wire.wInt 5, none⟩)) := by
  exact (incr_version_spec cfg1 st6 "k" 1 none (by decide)).1

/-- C5 counterexample: `incr` on a key holding a pickled *string*: the
node rejects the INCRBY, and the fallback `self.get(key) + 1` raises
`TypeError` (string + int), so the operation neither recovers nor stores
anything — the claim that the fallback recovers by read–add–store is
false for non-numeric serialized values. -/
theorem incr_typeerror_cex :
    incr cfg1 st5 (CKey.raw "k") 1 none = Except.error PyErr.typeError ∧
    kvExists (nodeOf st5 0) (encStr cfg1 "k" none) = true := by decide

/-- C5 (corrected): `incr(key, delta)` raises a `ValueError` when the
encoded key is absent; when it holds integer text `z` the node's atomic
INCRBY returns `z + delta` (ttl kept); when it holds a serialized value
`b` the fallback re-reads through `get` with the already-encoded key and
stores `b + 1` via `set` — this recovers (returning `b + 1`, stored under
the default timeout) only provided the sharder routes the encoded key
string to the same client as the raw key, `b + 1` is defined (e.g. a
pickled bool or number, not a string), and the default timeout does not
truncate negative. -/
theorem incr_spec (cfg : Config) (σ : CacheState) (k : String)
    (delta : ℤ) (ver : Option ℤ) :
    match kvGet (nodeOf σ (get_client cfg (CKey.raw k))) (encStr cfg k ver) with
    | none => incr cfg σ (CKey.raw k) delta ver = Except.error PyErr.valueError
    | some e =>
      match e.val with
      | Wire.wInt z =>
          incr cfg σ (CKey.raw k) delta ver
            = Except.ok (PyVal.pyInt (z + delta),
                withNode σ (get_client cfg (CKey.raw k))
                  (kvPut (nodeOf σ (get_client cfg (CKey.raw k)))
                    (encStr cfg k ver) ⟨Wire.wInt (z + delta), e.ttl⟩))
      | Wire.wPickle b =>
          ∀ v', get_client cfg (CKey.cacheKey (encStr cfg k ver))
              = get_client cfg (CKey.raw k) →
            pyAdd b (PyVal.pyInt 1) = Except.ok v' →
            0 ≤ pyTrunc cfg.defaultTimeout →
            incr cfg σ (CKey.raw k) delta ver
              = Except.ok (v', withNode σ (get_client cfg (CKey.raw k))
                  (kvPut (nodeOf σ (get_client cfg (CKey.raw k)))
                    (encStr cfg k ver)
                    ⟨encodeValue v',
                      if pyTrunc cfg.defaultTimeout = 0 then none
                      else some (pyTrunc cfg.defaultTimeout)⟩)) := by
  have hkk : keyStr (make_key cfg (CKey.raw k) ver) = encStr cfg k ver := rfl
  cases hsrc : kvGet (nodeOf σ (get_client cfg (CKey.raw k))) (encStr cfg k ver) with
  | none =>
    simp only [incr, hkk, hsrc, kvExists, Option.isSome_none]
    rw [if_pos trivial]
  | some e =>
    obtain ⟨w, ttl⟩ := e
    cases w with
    | wInt z =>
      simp only [incr, hkk, hsrc, kvExists, Option.isSome_some, kvIncr]
      simp
    | wPickle b =>
      intro v' h1 h2 h3
      have hget : get cfg σ (make_key cfg (CKey.raw k) ver) PyVal.pyNone none
          = b := by
        show get cfg σ (CKey.cacheKey (encStr cfg k ver)) PyVal.pyNone none = b
        simp only [get, get_client, keyStr, make_key]
        have : sharderGetClient cfg.labels (encStr cfg k ver)
            = get_client cfg (CKey.raw k) := h1
        rw [this, hsrc]
        rfl
      have hset : (set cfg σ (make_key cfg (CKey.raw k) ver) v'
            none none none false).2
          = withNode σ (get_client cfg (CKey.raw k))
              (kvPut (nodeOf σ (get_client cfg (CKey.raw k)))
                (encStr cfg k ver)
                ⟨encodeValue v',
                  if pyTrunc cfg.defaultTimeout = 0 then none
                  else some (pyTrunc cfg.defaultTimeout)⟩) := by
        rw [show make_key cfg (CKey.raw k) ver
            = CKey.cacheKey (encStr cfg k ver) from rfl]
        rw [set_false_eval]
        rw [show get_client cfg (CKey.cacheKey (encStr cfg k ver))
            = get_client cfg (CKey.raw k) from h1]
        rw [if_neg (not_lt_of_le (by simpa using h3))]
        rfl
      simp only [incr, hkk, hsrc, kvExists, Option.isSome_some, kvIncr, hget, h2,
        hset]
      simp

/-- C5 witness: on a node holding a pickled `True`, `incr("k", 3)` falls
back, computes `True + 1 = 2`, stores `2` as integer text with the
default timeout, and returns `2` (the fallback adds 1, not delta). -/
theorem incr_spec_witness :
    incr cfg1 st5b (CKey.raw "k") 3 none
      = Except.ok (PyVal.pyInt 2, withNode st5b (get_client cfg1 (CKey.raw "k"))
          (kvPut (nodeOf st5b (get_client cfg1 (CKey.raw "k")))
            (encStr cfg1 "k" none)
            ⟨encodeValue (PyVal.pyInt 2),
              if pyTrunc cfg1.defaultTimeout = 0 then none
              else some (pyTrunc cfg1.defaultTimeout)⟩)) :=
  (incr_spec cfg1 st5b "k" 3 none) (PyVal.pyInt 2) (by decide) (by decide)
    (by decide)

/-- C4 counterexample: with two registered nodes, the key `"k"` routes by
a hash of the **raw** key (to client 1), not of the encoded key
`"p:1:k"` (whose hash selects client 0): a value sitting under the
encoded key on the client the encoded-key hash selects is invisible to
`get`, which returns the default. -/
theorem routing_encoded_key_cex :
    sharderGetClient cfg4.labels (encStr cfg4 "k" none) = 0 ∧
    get_client cfg4 (CKey.raw "k") = 1 ∧
    kvGet (nodeOf st4 (sharderGetClient cfg4.labels (encStr cfg4 "k" none)))
        (encStr cfg4 "k" none) = some ⟨Wire.wInt 7, none⟩ ∧
    get cfg4 st4 (CKey.raw "k") PyVal.pyNone none = PyVal.pyNone := by decide

/-- C4 (corrected): the facade hands the **raw** logical key to the
sharder before encoding it, so the selected client is the deterministic
hash-selection on the raw key; with a fixed node set each key therefore
routes to exactly one client: `get` reads only that client's keyspace
(at the encoded key), and `set`, `add` and `incr_version` mutate only
that client's keyspace. -/
theorem routing_spec (cfg : Config) (σ : CacheState) (k : String)
    (dflt v : PyVal) (t : Option ℚ) (ver ver2 : Option ℤ) (delta : ℤ) :
    get_client cfg (CKey.raw k) = sharderGetClient cfg.labels k ∧
    get cfg σ (CKey.raw k) dflt ver
      = (match kvGet (nodeOf σ (get_client cfg (CKey.raw k)))
            (encStr cfg k ver) with
         | none => dflt
         | some e => get_value e.val) ∧
    (∃ kv', (set cfg σ (CKey.raw k) v t ver none false).2
        = withNode σ (get_client cfg (CKey.raw k)) kv') ∧
    (∃ kv', (add cfg σ (CKey.raw k) v t ver).2
        = withNode σ (get_client cfg (CKey.raw k)) kv') ∧
    (match incr_version cfg σ (CKey.raw k) delta ver2 with
     | Except.ok r => ∃ kv', r.2 = withNode σ (get_client cfg (CKey.raw k)) kv'
     | Except.error _ => True) := by
  refine ⟨rfl, rfl, ?_, ?_, ?_⟩
  · rw [set_false_eval]
    by_cases h : pyTrunc (t.getD cfg.defaultTimeout) < 0
    · exact ⟨nodeOf σ (get_client cfg (CKey.raw k)), by
        rw [if_pos h, withNode_nodeOf_self]⟩
    · exact ⟨_, by rw [if_neg h]⟩
  · by_cases hex : kvExists (nodeOf σ (get_client cfg (CKey.raw k)))
        (keyStr (make_key cfg (CKey.raw k) ver))
    · refine ⟨nodeOf σ (get_client cfg (CKey.raw k)), ?_⟩
      simp only [add, hex, if_pos, if_true]
      rw [withNode_nodeOf_self]
    · have : add cfg σ (CKey.raw k) v t ver
          = set cfg σ (CKey.raw k) v t none none true := by
        simp [add, hex]
      rw [this, set_true_eval]
      by_cases h1 : pyTrunc (t.getD cfg.defaultTimeout) < 0
      · exact ⟨nodeOf σ (get_client cfg (CKey.raw k)), by
          rw [if_pos h1, withNode_nodeOf_self]⟩
      · rw [if_neg h1]
        by_cases h2 : kvExists (nodeOf σ (get_client cfg (CKey.raw k)))
            (keyStr (make_key cfg (CKey.raw k) none))
        · exact ⟨nodeOf σ (get_client cfg (CKey.raw k)), by
            rw [if_pos h2, withNode_nodeOf_self]⟩
        · exact ⟨_, by rw [if_neg h2]⟩
  · cases hr : kvRename (nodeOf σ (get_client cfg (CKey.raw k)))
        (keyStr (make_key cfg (CKey.raw k)
          (some (ver2.getD cfg.version))))
        (keyStr (make_key cfg (CKey.raw k)
          (some (ver2.getD cfg.version + delta)))) with
    | error u => simp [incr_version, hr]
    | ok kv2 => simp [incr_version, hr]

/-- C9 (code_bug evidence): a non-integer port and a non-integer db value
fail at construction with `ImproperlyConfigured` (the ConfigurationError
class); but an unresolvable parser-variant name fails with
`UnboundLocalError` instead — the source's `except` branch formats its
error message from the local variable `parser_class`, which is unassigned
on that path — while a resolvable one constructs the node identities. -/
theorem config_error_spec :
    _init (fun _ _ => true) ["h:abc"] (PyVal.pyInt 1) none none
      = Except.error InitErr.improperlyConfigured ∧
    _init (fun _ _ => true) ["h:6379"] (PyVal.pyStr "abc") none none
      = Except.error InitErr.improperlyConfigured ∧
    _init (fun _ _ => false) ["h:6379"] (PyVal.pyInt 1) none (some "mod.Cls")
      = Except.error InitErr.unboundLocalError ∧
    _init (fun _ _ => true) ["h:6379"] (PyVal.pyInt 1) none (some "mod.Cls")
      = Except.ok [⟨some "h", some 6379, 1, none, "mod.Cls", none⟩] :=
  ⟨rfl, rfl, rfl, rfl⟩

theorem findGroup_addToGroup (acc : List (ℕ × List String)) (c : ℕ)
    (k : String) (j : ℕ) :
    findGroup (addToGroup acc c k) j
      = if j = c then some ((findGroup acc j).getD [] ++ [k])
        else findGroup acc j := by
  induction acc with
  | nil =>
    by_cases hj : j = c
    · simp [addToGroup, findGroup, hj]
    · simp [addToGroup, findGroup, hj, Ne.symm hj]
  | cons p rest ih =>
    obtain ⟨c', ks⟩ := p
    by_cases hc : c' = c
    · subst hc
      by_cases hj : c' = j
      · subst hj
        simp [addToGroup, findGroup]
      · simp [addToGroup, findGroup, hj, Ne.symm hj]
    · by_cases hj : c' = j
      · subst hj
        simp [addToGroup, findGroup, hc, Ne.symm hc]
      · simp [addToGroup, findGroup, hc, hj, ih]

theorem map_fst_addToGroup (acc : List (ℕ × List String)) (c : ℕ)
    (k : String) :
    (addToGroup acc c k).map Prod.fst
      = if c ∈ acc.map Prod.fst then acc.map Prod.fst
        else acc.map Prod.fst ++ [c] := by
  induction acc with
  | nil => simp [addToGroup]
  | cons p rest ih =>
    obtain ⟨c', ks⟩ := p
    by_cases hc : c' = c
    · subst hc
      simp [addToGroup]
    · by_cases hm : c ∈ rest.map Prod.fst
      · simp [addToGroup, hc, hm, Ne.symm hc, ih]
      · simp [addToGroup, hc, hm, Ne.symm hc, ih]

theorem foldl_addToGroup_nodup (keys : List String) (f : String → ℕ)
    (acc : List (ℕ × List String)) (h : (acc.map Prod.fst).Nodup) :
    ((keys.foldl (fun a k => addToGroup a (f k) k) acc).map Prod.fst).Nodup := by
  induction keys generalizing acc with
  | nil => exact h
  | cons k ks ih =>
    refine ih (addToGroup acc (f k) k) ?_
    rw [map_fst_addToGroup]
    by_cases hm : f k ∈ acc.map Prod.fst
    · simpa [hm] using h
    · simp only [hm, if_false]
      rw [List.nodup_append]
      exact ⟨h, List.nodup_singleton _, by simpa using hm⟩

theorem shard_fst_nodup (cfg : Config) (keys : List String) :
    ((shard cfg keys).map Prod.fst).Nodup :=
  foldl_addToGroup_nodup keys (fun k => get_client cfg (CKey.raw k)) []
    (by simp)

theorem findGroup_foldl (cfg : Config) (keys : List String) (j : ℕ)
    (acc : List (ℕ × List String)) :
    findGroup (keys.foldl
        (fun a k => addToGroup a (get_client cfg (CKey.raw k)) k) acc) j
      = (match findGroup acc j with
         | some g => some (g ++ keys.filter
             (fun k => decide (get_client cfg (CKey.raw k) = j)))
         | none =>
           if keys.filter (fun k => decide (get_client cfg (CKey.raw k) = j))
               = [] then none
           else some (keys.filter
             (fun k => decide (get_client cfg (CKey.raw k) = j)))) := by
  induction keys generalizing acc with
  | nil =>
    cases h : findGroup acc j <;> simp [h]
  | cons k ks ih =>
    show findGroup (ks.foldl _ (addToGroup acc (get_client cfg (CKey.raw k)) k)) j = _
    rw [ih]
    rw [findGroup_addToGroup]
    by_cases hj : j = get_client cfg (CKey.raw k)
    · have hfk : decide (get_client cfg (CKey.raw k) = j) = true := by
        simp [hj]
      cases h : findGroup acc j with
      | some g => simp [hj, h, hfk, List.filter_cons]
      | none => simp [hj, h, hfk, List.filter_cons]
    · have hfk : decide (get_client cfg (CKey.raw k) = j) = false := by
        simp
        exact fun hh => hj hh.symm
      cases h : findGroup acc j with
      | some g => simp [hj, h, hfk, List.filter_cons]
      | none => simp [hj, h, hfk, List.filter_cons]

theorem findGroup_shard (cfg : Config) (keys : List String) (j : ℕ) :
    findGroup (shard cfg keys) j
      = (if keys.filter (fun k => decide (get_client cfg (CKey.raw k) = j))
            = [] then none
         else some (keys.filter
           (fun k => decide (get_client cfg (CKey.raw k) = j)))) := by
  show findGroup (keys.foldl _ []) j = _
  rw [findGroup_foldl]
  rfl

theorem findGroup_eq_of_mem (l : List (ℕ × List String)) (c : ℕ)
    (g : List String) (hnd : (l.map Prod.fst).Nodup) (h : (c, g) ∈ l) :
    findGroup l c = some g := by
  induction l with
  | nil => simp at h
  | cons p rest ih =>
    obtain ⟨c', ks⟩ := p
    rcases List.mem_cons.mp h with h1 | h1
    · have hc : c = c' := congrArg Prod.fst h1
      have hg : g = ks := congrArg Prod.snd h1
      subst hc
      simp [findGroup, hg]
    · have hmem : c ∈ rest.map Prod.fst := List.mem_map_of_mem Prod.fst h1
      have hc : c' ≠ c := fun hcc => (List.nodup_cons.mp hnd).1 (hcc ▸ hmem)
      simp only [findGroup, if_neg hc]
      exact ih (List.nodup_cons.mp hnd).2 h1

theorem mem_fst_iff_findGroup (l : List (ℕ × List String)) (j : ℕ) :
    j ∈ l.map Prod.fst ↔ findGroup l j ≠ none := by
  induction l with
  | nil => simp [findGroup]
  | cons p rest ih =>
    obtain ⟨c', ks⟩ := p
    by_cases hj : c' = j
    · subst hj
      simp [findGroup]
    · simp [findGroup, hj, ih, Ne.symm hj]

theorem _get_many_eq_filterMap (cfg : Config) (kv : KV) (keys : List String)
    (ver : Option ℤ) :
    _get_many cfg kv keys ver
      = keys.filterMap (fun k => (kvMgetOne kv (encStr cfg k ver)).map
          (fun w => (k, get_value w))) := by
  induction keys with
  | nil => rfl
  | cons k ks ih =>
    simp only [_get_many, List.map_cons, List.zip_cons_cons,
      List.filterMap_cons] at ih ⊢
    cases h : (kvMgetOne kv (encStr cfg k ver)).map
        (fun w => (k, get_value w)) with
    | none => simpa [h] using ih
    | some p => simpa [h] using ih

theorem lookupVal_block (cfg : Config) (kv : KV) (keys : List String)
    (ver : Option ℤ) (q : String) :
    lookupVal (_get_many cfg kv keys ver) q
      = if q ∈ keys then (kvMgetOne kv (encStr cfg q ver)).map get_value
        else none := by
  rw [_get_many_eq_filterMap]
  induction keys with
  | nil => simp [lookupVal]
  | cons k ks ih =>
    rw [List.filterMap_cons]
    by_cases hk : k = q
    · subst hk
      cases h : kvMgetOne kv (encStr cfg k ver) with
      | none =>
        simp only [h, Option.map_none', ih]
        by_cases hm : k ∈ ks <;> simp [hm, h]
      | some w =>
        simp [h, lookupVal]
    · cases h : kvMgetOne kv (encStr cfg k ver) with
      | none =>
        simp only [h, Option.map_none', ih]
        simp [Ne.symm hk]
      | some w =>
        simp only [h, Option.map_some', lookupVal, if_neg hk, ih]
        simp [Ne.symm hk]

theorem lookupVal_append (l1 l2 : List (String × PyVal)) (q : String) :
    lookupVal (l1 ++ l2) q
      = (match lookupVal l1 q with
         | some v => some v
         | none => lookupVal l2 q) := by
  induction l1 with
  | nil => simp [lookupVal]
  | cons p rest ih =>
    obtain ⟨k', v⟩ := p
    by_cases hk : k' = q
    · simp [lookupVal, hk]
    · simp [lookupVal, hk, ih]

theorem foldl_append_join (gs : List (ℕ × List String))
    (f : ℕ × List String → List (String × PyVal))
    (acc : List (String × PyVal)) :
    gs.foldl (fun a g => a ++ f g) acc = acc ++ (gs.map f).flatten := by
  induction gs generalizing acc with
  | nil => simp
  | cons g rest ih =>
    show rest.foldl _ (acc ++ f g) = _
    rw [ih]
    simp [List.append_assoc]

theorem lookupVal_join_groups (cfg : Config) (σ : CacheState)
    (keys : List String) (q : String) (gs : List (ℕ × List String))
    (hgs : ∀ g ∈ gs, g.2 = keys.filter
        (fun k => decide (get_client cfg (CKey.raw k) = g.1)))
    (hnd : (gs.map Prod.fst).Nodup) :
    lookupVal ((gs.map (fun g => _get_many cfg (nodeOf σ g.1) g.2 none)).flatten) q
      = if q ∈ keys ∧ get_client cfg (CKey.raw q) ∈ gs.map Prod.fst
        then (kvMgetOne (nodeOf σ (get_client cfg (CKey.raw q)))
            (encStr cfg q none)).map get_value
        else none := by
  induction gs with
  | nil => simp [lookupVal]
  | cons g rest ih =>
    obtain ⟨c, ks⟩ := g
    have hks : ks = keys.filter
        (fun k => decide (get_client cfg (CKey.raw k) = c)) :=
      hgs (c, ks) (List.mem_cons_self _ _)
    have hrest : ∀ g ∈ rest, g.2 = keys.filter
        (fun k => decide (get_client cfg (CKey.raw k) = g.1)) :=
      fun g hg => hgs g (List.mem_cons_of_mem _ hg)
    have hnd' : (rest.map Prod.fst).Nodup := (List.nodup_cons.mp hnd).2
    have hcne : c ∉ rest.map Prod.fst := (List.nodup_cons.mp hnd).1
    rw [List.map_cons, List.flatten_cons, lookupVal_append, lookupVal_block,
      ih hrest hnd']
    have hmem : (q ∈ ks) ↔ (q ∈ keys ∧ get_client cfg (CKey.raw q) = c) := by
      rw [hks, List.mem_filter]
      simp
    by_cases hq : q ∈ keys ∧ get_client cfg (CKey.raw q) = c
    · obtain ⟨hqk, hqc⟩ := hq
      rw [if_pos (hmem.mpr ⟨hqk, hqc⟩), hqc]
      have hmemc : c ∈ List.map Prod.fst ((c, ks) :: rest) :=
        List.mem_cons_self _ _
      cases hM : (kvMgetOne (nodeOf σ c) (encStr cfg q none)).map get_value with
      | some v => simp [hM, hqk, hmemc]
      | none => simp [hM, hqk, hmemc, hcne]
    · rw [if_neg (fun hin => hq (hmem.mp hin))]
      by_cases hk : q ∈ keys
      · have hne : get_client cfg (CKey.raw q) ≠ c :=
          fun hc => hq ⟨hk, hc⟩
        by_cases hr : get_client cfg (CKey.raw q) ∈ rest.map Prod.fst
        · rw [if_pos ⟨hk, hr⟩, if_pos ⟨hk, List.mem_cons_of_mem _ hr⟩]
        · rw [if_neg (fun h => hr h.2), if_neg]
          rintro ⟨_, hin⟩
          rcases List.mem_cons.mp hin with h | h
          · exact hne h
          · exact hr h
      · rw [if_neg (fun h => hk h.1), if_neg (fun h => hk h.1)]

/-- C8 (confirmed): `get_many(keys)` shards the keys (one MGET per shard
touched: the shard list's clients are duplicate-free and are exactly the
clients of the requested keys), and the merged mapping holds, for each
requested key, the decoded value stored on *its* shard under the encoded
key — keys absent on their shard are omitted entirely, and keys never
requested do not appear. -/
theorem get_many_spec (cfg : Config) (σ : CacheState) (keys : List String)
    (ver : Option ℤ) (q : String) :
    (lookupVal (get_many cfg σ keys ver) q
      = if q ∈ keys
        then (kvMgetOne (nodeOf σ (get_client cfg (CKey.raw q)))
            (encStr cfg q none)).map get_value
        else none) ∧
    (mgetClients cfg keys).Nodup ∧
    (∀ c, c ∈ mgetClients cfg keys
        ↔ ∃ k, k ∈ keys ∧ get_client cfg (CKey.raw k) = c) := by
  have hgs : ∀ g ∈ shard cfg keys, g.2 = keys.filter
      (fun k => decide (get_client cfg (CKey.raw k) = g.1)) := by
    rintro ⟨c, ks⟩ hg
    have hfg := findGroup_eq_of_mem _ _ _ (shard_fst_nodup cfg keys) hg
    rw [findGroup_shard] at hfg
    by_cases hfil : keys.filter
        (fun k => decide (get_client cfg (CKey.raw k) = c)) = []
    · rw [if_pos hfil] at hfg
      exact Option.noConfusion hfg
    · rw [if_neg hfil] at hfg
      exact (Option.some.inj hfg).symm
  have hmemfst : ∀ c, c ∈ (shard cfg keys).map Prod.fst
      ↔ ¬ keys.filter (fun k => decide (get_client cfg (CKey.raw k) = c))
          = [] := by
    intro c
    rw [mem_fst_iff_findGroup, findGroup_shard]
    by_cases hfil : keys.filter
        (fun k => decide (get_client cfg (CKey.raw k) = c)) = []
    · simp [hfil]
    · simp [hfil]
  refine ⟨?_, shard_fst_nodup cfg keys, ?_⟩
  · have hjoin : get_many cfg σ keys ver
        = ((shard cfg keys).map
            (fun g => _get_many cfg (nodeOf σ g.1) g.2 none)).flatten := by
      show (shard cfg keys).foldl _ [] = _
      rw [foldl_append_join]
      rfl
    rw [hjoin, lookupVal_join_groups cfg σ keys q (shard cfg keys) hgs
      (shard_fst_nodup cfg keys)]
    by_cases hk : q ∈ keys
    · have hin : get_client cfg (CKey.raw q) ∈ (shard cfg keys).map Prod.fst := by
        rw [hmemfst]
        intro hfil
        have : q ∈ keys.filter
            (fun k => decide (get_client cfg (CKey.raw k)
              = get_client cfg (CKey.raw q))) := by
          rw [List.mem_filter]
          exact ⟨hk, by simp⟩
        rw [hfil] at this
        simp at this
      rw [if_pos ⟨hk, hin⟩, if_pos hk]
    · rw [if_neg (fun h => hk h.1), if_neg hk]
  · intro c
    rw [show mgetClients cfg keys = (shard cfg keys).map Prod.fst from rfl,
      hmemfst]
    constructor
    · intro hfil
      rcases List.exists_mem_of_ne_nil _ hfil with ⟨k, hkmem⟩
      rw [List.mem_filter] at hkmem
      exact ⟨k, hkmem.1, by simpa using hkmem.2⟩
    · rintro ⟨k, hkmem, hkc⟩ hfil
      have : k ∈ keys.filter
          (fun k => decide (get_client cfg (CKey.raw k) = c)) := by
        rw [List.mem_filter]
        exact ⟨hkmem, by simp [hkc]⟩
      rw [hfil] at this
      simp at this

end RedisCacheModel
